import Mathlib

/-!
A verification development for the GraphRAG query-summarization pipeline
(`src/graph_pipeline.py`, `scripts/run_query.py`).

Strings are modelled as `List Char`.  The free-form model output is parsed
by an executable embedding of `re.finditer` with the pattern
`^\s*-\s*(.+?)\s*->\s*(.+?)\s*->\s*(.+?)\s*$` under `re.MULTILINE`:
`^` and `$` anchor at line boundaries and the lazy `(.+?)` groups cannot
contain a newline, but every `\s*` still matches newlines, so one match can
span several lines.  The scanner `scanMatches` reproduces the engine's
backtracking order — greedy whitespace longest-first, lazy groups
shortest-first, the forced whitespace-then-`->` separators, leftmost anchor
wins, non-overlapping continuation after each match — and each match's
captured fields are stripped afterwards.  A line-local matcher
(`matchRelLine`) is kept solely to formalize the structural line shape
`- <A> -> <B> -> <C>` that the specification's sentences quantify over;
the program itself is the whole-block scanner.  The knowledge graph is
an undirected labelled graph with insertion-ordered node and edge lists;
edges are keyed by unordered endpoint pair with last-write-wins labels,
mirroring `networkx.Graph.add_edge`.  Community detection decomposes the
graph into connected components and runs an external partitioner per
component with a whole-component fallback on failure; the partitioner
(`leidenalg.find_partition`) is not part of the repository and is modelled
as an oracle argument.  The LLM handler is likewise modelled as an oracle
returning `Option`, `none` standing for a raised exception.
-/

namespace GraphRAG

abbrev Str := List Char

def str (s : String) : Str := s.data

/-- Whitespace, modelling the regex class and Python field stripping. -/
def isWS (c : Char) : Bool := c.isWhitespace

/-- Strip leading and trailing whitespace, modelling Python `str.strip()`. -/
def trimChars (l : Str) : Str :=
  ((l.dropWhile isWS).reverse.dropWhile isWS).reverse

/-- Split a block at newline characters.  The resulting lines are exactly the
regions between the `^` anchor positions of a MULTILINE regex scan. -/
def splitLines : Str → List Str
  | [] => [[]]
  | c :: t =>
    if c = '\n' then [] :: splitLines t
    else
      match splitLines t with
      | [] => [[c]]
      | l :: ls => (c :: l) :: ls

/-- `containsSub pat s` holds when `pat` occurs as a contiguous substring of
`s`, modelling the Python `in` test on strings. -/
def containsSub (pat : Str) : Str → Bool
  | [] => pat.isEmpty
  | c :: t => pat.isPrefixOf (c :: t) || containsSub pat t

/-- All ways to split a string at an occurrence of the two-character
separator `->`, in left-to-right order of the occurrence.  Used only by the
line-local shape matcher below. -/
def arrowSplits : Str → List (Str × Str)
  | [] => []
  | c :: t =>
    let tail := (arrowSplits t).map (fun p => (c :: p.1, p.2))
    match c, t with
    | '-', '>' :: t2 => ([], t2) :: tail
    | _, _ => tail

/-- Line-local matcher for `(.+?)\s*->\s*(.+?)\s*->\s*(.+?)\s*$` confined to
one line: the lazy groups pick the leftmost usable `->` occurrences and each
group needs at least one character.  This formalizes what the spec calls a
line matching the structural triple shape; the program's own matcher is the
whole-block scanner `scanMatches` below, whose separators may cross
newlines. -/
def matchTail (rest : Str) : Option (Str × Str × Str) :=
  ((arrowSplits rest).filterMap (fun p =>
      if p.1 = [] then none
      else
        ((arrowSplits p.2).filterMap (fun q =>
            if q.1 = [] ∨ q.2 = [] then none
            else some (p.1, q.1, q.2))).head?)).head?

/-- A single line matching the structural shape
`^\s*-\s*(.+?)\s*->\s*(.+?)\s*->\s*(.+?)\s*$` within the line: skip leading
whitespace, require a dash, then match the three fields inside the line. -/
def matchRelLine (line : Str) : Option (Str × Str × Str) :=
  match line.dropWhile isWS with
  | '-' :: rest => matchTail rest
  | _ => none

structure Triple where
  source : Str
  relation : Str
  target : Str
deriving DecidableEq

/-- The loop body applied to one regex match: strip each captured field and
discard the match when any stripped field is empty
(`if not source or not relation or not target: continue`). -/
def matchTriple (m : Str × Str × Str) : Option Triple :=
  let s := trimChars m.1
  let r := trimChars m.2.1
  let t := trimChars m.2.2
  if s = [] ∨ r = [] ∨ t = [] then none else some ⟨s, r, t⟩

/-- What a line matching the structural shape would contribute on its own:
its match with each field stripped, discarded on an empty stripped field.
Claim vocabulary; the program extracts per whole-block match. -/
def lineTriple (line : Str) : Option Triple :=
  match matchRelLine line with
  | none => none
  | some m => matchTriple m

/-- Candidate start suffixes for a lazy group after a greedy `\s*`: the
suffixes of `s` at offsets `0 .. wsRun` in greedy order (longest whitespace
prefix first), keeping only those whose first character exists and is not a
newline (`.` cannot match a newline, and `\s*` backtracks shorter only into
whitespace). -/
def wsTails : Str → List Str
  | [] => [[]]
  | c :: t => (c :: t) :: (if isWS c then wsTails t else [])

def wsStarts (s : Str) : List Str :=
  (wsTails s).reverse.filterMap (fun r =>
    match r with
    | [] => none
    | c :: t => if c = '\n' then none else some (c :: t))

/-- Candidate `(group, rest)` splits for a lazy `(.+?)`: ascending group
length (shortest first), at least one character, never containing a
newline. -/
def lazyGroupSplits : Str → List (Str × Str)
  | [] => []
  | c :: t =>
    if c = '\n' then []
    else ([c], t) :: (lazyGroupSplits t).map (fun p => (c :: p.1, p.2))

/-- `\s*->` after a group: the greedy `\s*` must take the whole maximal
whitespace run (a shorter take would leave a whitespace character where the
literal `-` is required), which may include newlines, and then the literal
`->` must follow. -/
def sepAfter (s : Str) : Option Str :=
  match s.dropWhile isWS with
  | '-' :: '>' :: u => some u
  | _ => none

/-- The suffix of an all-whitespace run starting at its last newline. -/
def suffixFromLastNl : Str → Str
  | [] => []
  | c :: t =>
    if '\n' ∈ t then suffixFromLastNl t
    else if c = '\n' then c :: t else suffixFromLastNl t

/-- `\s*$` after the third group: the greedy run may consume trailing
whitespace across line breaks; `$` holds at the end of the string or before
a newline, and greedy matching ends the match before the last newline of
the run.  Returns the remaining text from the match end on success. -/
def endMatch (s : Str) : Option Str :=
  let v := s.dropWhile isWS
  if v = [] then some []
  else
    let u := s.takeWhile isWS
    if '\n' ∈ u then some (suffixFromLastNl u ++ v) else none

/-- Backtracking match of `(.+?)\s*->\s*(.+?)\s*->\s*(.+?)\s*$` against a
prefix of the text after the dash, in the engine's preference order: outer
choice points vary slowest, greedy `\s*` longest-first (`wsStarts`), lazy
groups shortest-first (`lazyGroupSplits`), separators forced.  Returns the
three raw captured regions and the remainder after the match. -/
def scanTail (R : Str) : Option ((Str × Str × Str) × Str) :=
  ((wsStarts R).filterMap (fun s1 =>
    ((lazyGroupSplits s1).filterMap (fun p1 =>
      match sepAfter p1.2 with
      | none => none
      | some a2 =>
        ((wsStarts a2).filterMap (fun s2 =>
          ((lazyGroupSplits s2).filterMap (fun p2 =>
            match sepAfter p2.2 with
            | none => none
            | some a3 =>
              ((wsStarts a3).filterMap (fun s3 =>
                ((lazyGroupSplits s3).filterMap (fun p3 =>
                  match endMatch p3.2 with
                  | none => none
                  | some rest =>
                    some ((p1.1, p2.1, p3.1), rest))).head?)).head?)).head?)).head?)).head?)).head?

/-- A match attempt at an anchor (`^` position): the greedy `^\s*` must be
the maximal whitespace run — possibly crossing newlines — followed by the
literal dash, then the three fields. -/
def anchorMatch (s : Str) : Option ((Str × Str × Str) × Str) :=
  match s.dropWhile isWS with
  | '-' :: rest => scanTail rest
  | _ => none

/-- `re.finditer` over a block: anchors are the block start and every
position after a newline; the leftmost anchor with a match wins and
scanning resumes at the match end (a match ends at the block end or at a
newline, so the scanner conservatively resumes at the following line start,
which skips only whitespace and therefore the same matches follow).  The
fuel argument only bounds the recursion; every step consumes at least one
character, so `length + 1` fuel always suffices. -/
def scanMatches : Nat → Bool → Str → List (Str × Str × Str)
  | 0, _, _ => []
  | _ + 1, _, [] => []
  | fuel + 1, atAnchor, c :: t =>
    if atAnchor then
      match anchorMatch (c :: t) with
      | some (g, rest) => g :: scanMatches fuel false rest
      | none => scanMatches fuel (c = '\n') t
    else scanMatches fuel (c = '\n') t

/-- All raw regex matches that `finditer` yields on one block. -/
def blockMatches (block : Str) : List (Str × Str × Str) :=
  scanMatches (block.length + 1) true block

/-- The `"Relationships:"` marker whose absence makes
`build_knowledge_graph` skip a block. -/
def relMarker : Str := str "Relationships:"

/-- All triples contributed by one element summary block: none when the
block lacks the `"Relationships:"` marker, otherwise one triple per
non-degenerate regex match found by the multiline scan. -/
def blockTriples (block : Str) : List Triple :=
  if containsSub relMarker block then (blockMatches block).filterMap matchTriple
  else []

/-- The knowledge graph: insertion-ordered distinct node names and a list of
labelled undirected edges `(u, v, label)` keyed by the unordered pair
`{u, v}`, modelling `networkx.Graph`. -/
structure KGraph where
  nodes : List Str
  edges : List (Str × Str × Str)
deriving DecidableEq

def emptyGraph : KGraph := ⟨[], []⟩

/-- `G.add_node`: a no-op when the node already exists. -/
def addNode (g : KGraph) (n : Str) : KGraph :=
  if n ∈ g.nodes then g else { g with nodes := g.nodes ++ [n] }

/-- Whether a stored edge has `{u, v}` as its unordered endpoint pair. -/
def sameEdge (u v : Str) (e : Str × Str × Str) : Bool :=
  decide ((e.1 = u ∧ e.2.1 = v) ∨ (e.1 = v ∧ e.2.1 = u))

/-- `G.add_edge(u, v, label=lab)`: overwrite the label when the unordered
pair already has an edge (in either orientation), else append a new edge. -/
def addEdge (g : KGraph) (u v lab : Str) : KGraph :=
  if g.edges.any (sameEdge u v) then
    { g with edges := g.edges.map (fun e =>
        if sameEdge u v e then (e.1, e.2.1, lab) else e) }
  else
    { g with edges := g.edges ++ [(u, v, lab)] }

/-- The per-triple body of the parsing loop: add both endpoint nodes, then
add or overwrite the labelled edge. -/
def applyTriple (g : KGraph) (t : Triple) : KGraph :=
  addEdge (addNode (addNode g t.source) t.target) t.source t.target t.relation

/-- The ordered sequence of triples extracted from all blocks. -/
def allTriples (blocks : List Str) : List Triple :=
  (blocks.map blockTriples).flatten

/-- Fold a triple sequence into a graph. -/
def buildFromTriples (ts : List Triple) : KGraph :=
  ts.foldl applyTriple emptyGraph

/-- `build_knowledge_graph`: skip blocks without the marker, parse the
relationship lines of the rest, and accumulate nodes and labelled edges. -/
def build_knowledge_graph (blocks : List Str) : KGraph :=
  buildFromTriples (allTriples blocks)

example : blockTriples (str "Relationships:\n- Alice -> knows -> Bob") =
    [⟨str "Alice", str "knows", str "Bob"⟩] := by decide

example : blockTriples (str "Entities:\n- Alice\n- Bob") = [] := by decide

example : matchRelLine (str "-  -> knows -> Bob") =
    some (str "  ", str " knows ", str " Bob") := by decide

example : lineTriple (str "-  -> knows -> Bob") = none := by decide

example : blockTriples (str "Relationships:\n- a -> b -> c -> d") =
    [⟨str "a", str "b", str "c -> d"⟩] := by decide

example : build_knowledge_graph [str "Relationships:\n- A -> r1 -> B\n- B -> r2 -> A"] =
    ⟨[str "A", str "B"], [(str "A", str "B", str "r2")]⟩ := by decide

/-- The unordered-pair equality used for edge keying. -/
def pairEq (a b u v : Str) : Prop := (a = u ∧ b = v) ∨ (a = v ∧ b = u)

instance (a b u v : Str) : Decidable (pairEq a b u v) := by
  unfold pairEq; infer_instance

/-- Whether a triple's endpoints form the unordered pair `{A, B}`. -/
def pairMatch (A B : Str) (t : Triple) : Bool :=
  decide (pairEq t.source t.target A B)

/-- The relation of the last triple in `ts` whose endpoints form the
unordered pair `{A, B}`, if any. -/
def lastRel (ts : List Triple) (A B : Str) : Option Str :=
  (ts.reverse.find? (pairMatch A B)).map (fun t => t.relation)

/-- The label stored in a graph on the edge with unordered endpoint pair
`{A, B}`, if such an edge exists. -/
def edgeLabel (g : KGraph) (A B : Str) : Option Str :=
  (g.edges.find? (sameEdge A B)).map (fun e => e.2.2)

lemma edges_addNode (g : KGraph) (n : Str) : (addNode g n).edges = g.edges := by
  unfold addNode; split <;> rfl

lemma nodes_addEdge (g : KGraph) (u v lab : Str) :
    (addEdge g u v lab).nodes = g.nodes := by
  unfold addEdge; split <;> rfl

lemma sameEdge_endpoints (A B : Str) (e : Str × Str × Str) (lab : Str) :
    sameEdge A B (e.1, e.2.1, lab) = sameEdge A B e := by
  simp [sameEdge]

lemma sameEdge_iff (A B : Str) (e : Str × Str × Str) :
    sameEdge A B e = true ↔ pairEq e.1 e.2.1 A B := by
  simp [sameEdge, pairEq]

lemma pairEq_shared {a b u v A B : Str} (h1 : pairEq a b A B)
    (h2 : pairEq a b u v) : pairEq u v A B := by
  rcases h1 with ⟨rfl, rfl⟩ | ⟨rfl, rfl⟩ <;>
    rcases h2 with ⟨rfl, rfl⟩ | ⟨rfl, rfl⟩ <;> simp [pairEq]

lemma sameEdge_of_pairEq {u v A B : Str} (h : pairEq u v A B)
    (e : Str × Str × Str) : sameEdge A B e = sameEdge u v e := by
  rcases h with ⟨rfl, rfl⟩ | ⟨rfl, rfl⟩
  · rfl
  · simp only [sameEdge]
    exact decide_eq_decide.mpr (by tauto)

lemma edgeLabel_addEdge (g : KGraph) (u v lab A B : Str) :
    edgeLabel (addEdge g u v lab) A B =
      if pairEq u v A B then some lab else edgeLabel g A B := by
  unfold addEdge edgeLabel
  by_cases hpq : pairEq u v A B
  · simp only [hpq, if_pos]
    split
    · next hany =>
      rw [List.find?_map]
      have hfun : ∀ e, (sameEdge A B ∘ fun e =>
          if sameEdge u v e then (e.1, e.2.1, lab) else e) e = sameEdge u v e := by
        intro e
        by_cases h : sameEdge u v e
        · simp [h, Function.comp, sameEdge_endpoints, sameEdge_of_pairEq hpq]
        · simp [h, Function.comp, sameEdge_of_pairEq hpq]
      rw [funext hfun]
      obtain ⟨e0, he0, hpe0⟩ := List.any_eq_true.mp hany
      cases hfind : g.edges.find? (sameEdge u v) with
      | none => exact absurd hpe0 (by simpa using List.find?_eq_none.mp hfind e0 he0)
      | some e1 =>
        have := List.find?_some hfind
        simp [this]
    · next hany =>
      rw [List.find?_append]
      have hnone : g.edges.find? (sameEdge A B) = none := by
        rw [List.find?_eq_none]
        intro x hx
        rw [sameEdge_of_pairEq hpq]
        simp only [List.any_eq_true, not_exists] at hany
        by_contra hc
        exact hany x ⟨hx, by simpa using hc⟩
      rw [hnone]
      have : sameEdge A B (u, v, lab) = true := by
        rw [sameEdge_iff]
        simp only
        rcases hpq with ⟨rfl, rfl⟩ | ⟨rfl, rfl⟩ <;> simp [pairEq]
      simp [List.find?, this]
  · simp only [hpq, if_neg, not_false_eq_true]
    split
    · next hany =>
      rw [List.find?_map]
      have hfun : ∀ e, (sameEdge A B ∘ fun e =>
          if sameEdge u v e then (e.1, e.2.1, lab) else e) e = sameEdge A B e := by
        intro e
        by_cases h : sameEdge u v e
        · simp [h, Function.comp, sameEdge_endpoints]
        · simp [h, Function.comp]
      rw [funext hfun]
      cases hfind : g.edges.find? (sameEdge A B) with
      | none => rfl
      | some e0 =>
        have hAB := (sameEdge_iff A B e0).mp (List.find?_some hfind)
        have huv : sameEdge u v e0 = false := by
          by_contra hc
          have : sameEdge u v e0 = true := by
            revert hc; cases sameEdge u v e0 <;> simp
          exact hpq (pairEq_shared hAB ((sameEdge_iff u v e0).mp this))
        simp [huv]
    · next hany =>
      rw [List.find?_append]
      have : sameEdge A B (u, v, lab) = false := by
        by_contra hc
        have : sameEdge A B (u, v, lab) = true := by
          revert hc; cases sameEdge A B (u, v, lab) <;> simp
        exact hpq ((sameEdge_iff A B (u, v, lab)).mp this)
      simp [List.find?, this]

lemma edgeLabel_applyTriple (g : KGraph) (t : Triple) (A B : Str) :
    edgeLabel (applyTriple g t) A B =
      if pairMatch A B t then some t.relation else edgeLabel g A B := by
  unfold applyTriple
  rw [edgeLabel_addEdge]
  have hedges : edgeLabel (addNode (addNode g t.source) t.target) A B =
      edgeLabel g A B := by
    unfold edgeLabel
    rw [edges_addNode, edges_addNode]
  rw [hedges, pairMatch]
  by_cases h : pairEq t.source t.target A B <;> simp [h]

lemma edgeLabel_foldl (ts : List Triple) (g : KGraph) (A B : Str) :
    edgeLabel (ts.foldl applyTriple g) A B =
      (lastRel ts A B).or (edgeLabel g A B) := by
  induction ts generalizing g with
  | nil => simp [lastRel]
  | cons t ts ih =>
    rw [List.foldl_cons, ih, edgeLabel_applyTriple]
    unfold lastRel
    rw [List.reverse_cons, List.find?_append]
    cases hfind : ts.reverse.find? (pairMatch A B) with
    | some t0 => simp [Option.or]
    | none =>
      by_cases h : pairMatch A B t <;> simp [h, Option.or, List.find?]

lemma distinctPairs_addEdge (g : KGraph) (u v lab : Str)
    (h : List.Pairwise (fun e e2 => ¬ pairEq e.1 e.2.1 e2.1 e2.2.1) g.edges) :
    List.Pairwise (fun e e2 => ¬ pairEq e.1 e.2.1 e2.1 e2.2.1)
      (addEdge g u v lab).edges := by
  unfold addEdge
  split
  · next hany =>
    simp only
    refine List.Pairwise.map _ ?_ h
    intro a b hab
    by_cases h1 : sameEdge u v a <;> by_cases h2 : sameEdge u v b <;>
      simp [h1, h2, hab]
  · next hany =>
    simp only
    rw [List.pairwise_append]
    refine ⟨h, List.pairwise_singleton _ _, ?_⟩
    intro a ha b hb
    simp only [List.mem_singleton] at hb
    subst hb
    simp only [List.any_eq_true, not_exists] at hany
    intro hc
    have : sameEdge u v a = true := by
      rw [sameEdge_iff]
      rcases hc with ⟨h1, h2⟩ | ⟨h1, h2⟩
      · exact Or.inl ⟨h1, h2⟩
      · exact Or.inr ⟨h1, h2⟩
    by_cases ha2 : a ∈ g.edges
    · exact hany a ⟨ha2, by simpa using this⟩
    · exact ha2 ha

lemma distinctPairs_foldl (ts : List Triple) (g : KGraph)
    (h : List.Pairwise (fun e e2 => ¬ pairEq e.1 e.2.1 e2.1 e2.2.1) g.edges) :
    List.Pairwise (fun e e2 => ¬ pairEq e.1 e.2.1 e2.1 e2.2.1)
      (ts.foldl applyTriple g).edges := by
  induction ts generalizing g with
  | nil => exact h
  | cons t ts ih =>
    rw [List.foldl_cons]
    refine ih _ ?_
    unfold applyTriple
    refine distinctPairs_addEdge _ _ _ _ ?_
    rw [edges_addNode, edges_addNode]
    exact h

lemma nodes_addNode_mem (g : KGraph) (n m : Str) :
    m ∈ (addNode g n).nodes ↔ m ∈ g.nodes ∨ m = n := by
  unfold addNode
  split
  · next h =>
    exact ⟨Or.inl, fun h2 => h2.elim id (fun hm => hm ▸ h)⟩
  · simp [or_comm]

lemma nodes_applyTriple_mem (g : KGraph) (t : Triple) (m : Str) :
    m ∈ (applyTriple g t).nodes ↔ m ∈ g.nodes ∨ m = t.source ∨ m = t.target := by
  unfold applyTriple
  rw [nodes_addEdge, nodes_addNode_mem, nodes_addNode_mem]
  tauto

lemma nodes_foldl_mono (ts : List Triple) (g : KGraph) (m : Str)
    (h : m ∈ g.nodes) : m ∈ (ts.foldl applyTriple g).nodes := by
  induction ts generalizing g with
  | nil => exact h
  | cons t ts ih =>
    rw [List.foldl_cons]
    exact ih _ ((nodes_applyTriple_mem g t m).mpr (Or.inl h))

lemma triple_nodes_foldl (ts : List Triple) (g : KGraph) :
    ∀ t ∈ ts, t.source ∈ (ts.foldl applyTriple g).nodes ∧
      t.target ∈ (ts.foldl applyTriple g).nodes := by
  induction ts generalizing g with
  | nil => intro t ht; cases ht
  | cons t0 ts ih =>
    intro t ht
    rw [List.foldl_cons]
    rcases List.mem_cons.mp ht with rfl | hmem
    · constructor
      · exact nodes_foldl_mono ts _ _
          ((nodes_applyTriple_mem g t t.source).mpr (Or.inr (Or.inl rfl)))
      · exact nodes_foldl_mono ts _ _
          ((nodes_applyTriple_mem g t t.target).mpr (Or.inr (Or.inr rfl)))
    · exact ih _ t hmem

lemma nodes_foldl_from (ts : List Triple) (g : KGraph) (m : Str)
    (h : m ∈ (ts.foldl applyTriple g).nodes) :
    (∃ t ∈ ts, m = t.source ∨ m = t.target) ∨ m ∈ g.nodes := by
  induction ts generalizing g with
  | nil => exact Or.inr h
  | cons t ts ih =>
    rw [List.foldl_cons] at h
    rcases ih _ h with ⟨t1, ht1, hm⟩ | hg
    · exact Or.inl ⟨t1, List.mem_cons_of_mem _ ht1, hm⟩
    · rcases (nodes_applyTriple_mem g t m).mp hg with hh | hh | hh
      · exact Or.inr hh
      · exact Or.inl ⟨t, List.mem_cons_self _ _, Or.inl hh⟩
      · exact Or.inl ⟨t, List.mem_cons_self _ _, Or.inr hh⟩

lemma edges_addEdge_from (g : KGraph) (u v lab : Str) :
    ∀ e ∈ (addEdge g u v lab).edges,
      (e.1 = u ∧ e.2.1 = v) ∨ ∃ e0 ∈ g.edges, e0.1 = e.1 ∧ e0.2.1 = e.2.1 := by
  unfold addEdge
  split
  · intro e he
    simp only at he
    obtain ⟨e0, he0, hfe⟩ := List.mem_map.mp he
    refine Or.inr ⟨e0, he0, ?_⟩
    by_cases h : sameEdge u v e0 <;> simp [h] at hfe <;> subst hfe <;> simp
  · intro e he
    simp only at he
    rcases List.mem_append.mp he with h | h
    · exact Or.inr ⟨e, h, rfl, rfl⟩
    · simp only [List.mem_singleton] at h
      subst h
      exact Or.inl ⟨rfl, rfl⟩

lemma edges_foldl_from (ts : List Triple) (g : KGraph) :
    ∀ e ∈ (ts.foldl applyTriple g).edges,
      (∃ t ∈ ts, t.source = e.1 ∧ t.target = e.2.1) ∨
        ∃ e0 ∈ g.edges, e0.1 = e.1 ∧ e0.2.1 = e.2.1 := by
  induction ts generalizing g with
  | nil => intro e he; exact Or.inr ⟨e, he, rfl, rfl⟩
  | cons t ts ih =>
    intro e he
    rw [List.foldl_cons] at he
    rcases ih _ e he with ⟨t1, ht1, hm⟩ | ⟨e0, he0, hends⟩
    · exact Or.inl ⟨t1, List.mem_cons_of_mem _ ht1, hm⟩
    · unfold applyTriple at he0
      rcases edges_addEdge_from _ _ _ _ e0 he0 with ⟨h1, h2⟩ | ⟨e1, he1, h1, h2⟩
      · exact Or.inl ⟨t, List.mem_cons_self _ _,
          by rw [h1, h2] at hends; exact hends⟩
      · rw [edges_addNode, edges_addNode] at he1
        exact Or.inr ⟨e1, he1, h1.trans hends.1, h2.trans hends.2⟩

lemma allTriples_append (xs ys : List Str) :
    allTriples (xs ++ ys) = allTriples xs ++ allTriples ys := by
  unfold allTriples
  rw [List.map_append, List.flatten_append]

lemma build_skip_block (pre post : List Str) (block : Str)
    (h : blockTriples block = []) :
    build_knowledge_graph (pre ++ block :: post) =
      build_knowledge_graph (pre ++ post) := by
  unfold build_knowledge_graph
  have : allTriples (pre ++ block :: post) = allTriples (pre ++ post) := by
    rw [allTriples_append, allTriples_append]
    show allTriples pre ++ allTriples ([block] ++ post) = _
    rw [allTriples_append]
    unfold allTriples
    simp [h]
  rw [this]

/-- C4: in the graph built by `build_knowledge_graph`, edges are keyed by
unordered node pair with a single label (no two stored edges share an
unordered endpoint pair), and the label of the edge with unordered pair
`{A, B}` equals the relation of the last extracted triple whose
source/target pair is `(A, B)` or `(B, A)` — inserting an edge for an
existing pair in either orientation overwrites the stored label. -/
theorem edge_last_write_wins (blocks : List Str) (A B : Str) :
    edgeLabel (build_knowledge_graph blocks) A B =
        lastRel (allTriples blocks) A B ∧
      List.Pairwise (fun e e2 => ¬ pairEq e.1 e.2.1 e2.1 e2.2.1)
        (build_knowledge_graph blocks).edges := by
  constructor
  · unfold build_knowledge_graph buildFromTriples
    rw [edgeLabel_foldl]
    cases lastRel (allTriples blocks) A B <;> simp [Option.or, edgeLabel, emptyGraph]
  · exact distinctPairs_foldl _ _ (by simp [emptyGraph])

/-- C5: every edge of the built graph carries the endpoint pair of some
extracted triple (in its original orientation), every extracted triple's
source and target occur as nodes, every edge's endpoints occur as nodes,
and the empty input yields the empty graph. -/
theorem graph_containment (blocks : List Str) :
    (∀ e ∈ (build_knowledge_graph blocks).edges,
        ∃ t ∈ allTriples blocks, t.source = e.1 ∧ t.target = e.2.1) ∧
      (∀ t ∈ allTriples blocks,
        t.source ∈ (build_knowledge_graph blocks).nodes ∧
          t.target ∈ (build_knowledge_graph blocks).nodes) ∧
      (∀ e ∈ (build_knowledge_graph blocks).edges,
        e.1 ∈ (build_knowledge_graph blocks).nodes ∧
          e.2.1 ∈ (build_knowledge_graph blocks).nodes) ∧
      build_knowledge_graph [] = emptyGraph := by
  refine ⟨?_, ?_, ?_, rfl⟩
  · intro e he
    rcases edges_foldl_from _ _ e he with h | ⟨e0, he0, _⟩
    · exact h
    · cases he0
  · intro t ht
    exact triple_nodes_foldl _ emptyGraph t ht
  · intro e he
    have hex : ∃ t ∈ allTriples blocks, t.source = e.1 ∧ t.target = e.2.1 := by
      rcases edges_foldl_from _ _ e he with h | ⟨e0, he0, _⟩
      · exact h
      · cases he0
    obtain ⟨t, ht, h1, h2⟩ := hex
    have := triple_nodes_foldl (allTriples blocks) emptyGraph t ht
    rw [h1, h2] at this
    exact this

/-- C7: a block that does not contain the substring `"Relationships:"`
contributes zero triples and no nodes or edges — dropping it from the input
leaves the built graph unchanged — no matter how many of its lines match
the structural triple shape. -/
theorem no_marker_no_triples (block : Str)
    (h : containsSub relMarker block = false) :
    blockTriples block = [] ∧
      ∀ pre post : List Str,
        build_knowledge_graph (pre ++ block :: post) =
          build_knowledge_graph (pre ++ post) := by
  have hbt : blockTriples block = [] := by
    unfold blockTriples
    rw [h]
    rfl
  exact ⟨hbt, fun pre post => build_skip_block pre post block hbt⟩

theorem no_marker_no_triples_witness :
    containsSub relMarker (str "- Alice -> knows -> Bob") = false ∧
      blockTriples (str "- Alice -> knows -> Bob") = [] :=
  ⟨by decide, (no_marker_no_triples _ (by decide)).1⟩

/-- A block falsifying line-level independence: it contains the
structurally matching line `"-  -> x -> y"` with an empty first field and
the well-formed line `"- A -> r -> B"`, but the intervening partial line
`"- p ->"` starts a regex match whose separators cross the newline and
consume the well-formed line. -/
def cexBlockC8 : Str := str "Relationships:\n-  -> x -> y\n- p ->\n- A -> r -> B"

/-- C8 counterexample: the block `cexBlockC8` contains a line matching the
structural shape whose first field trims to empty, and another well-formed
line whose triple is nevertheless absent from the block's extracted
triples — the program's only extracted triple is the spanning match
`(p, - A, r -> B)` — so "every other well-formed line in the same block
still contributes its triple" fails on the code. -/
theorem line_unit_extraction_counterexample :
    (str "-  -> x -> y") ∈ splitLines cexBlockC8 ∧
      matchRelLine (str "-  -> x -> y") =
        some (str "  ", str " x ", str " y") ∧
      trimChars (str "  ") = [] ∧
      (str "- A -> r -> B") ∈ splitLines cexBlockC8 ∧
      lineTriple (str "- A -> r -> B") =
        some ⟨str "A", str "r", str "B"⟩ ∧
      blockTriples cexBlockC8 = [⟨str "p", str "- A", str "r -> B"⟩] ∧
      (⟨str "A", str "r", str "B"⟩ : Triple) ∉ blockTriples cexBlockC8 := by
  refine ⟨by decide, by decide, by decide, by decide, by decide, by decide,
    by decide⟩

/-- C8 as amended: `build_knowledge_graph` is total (it is a Lean function
and raises nothing), and the unit of isolation is the regex match, not the
line — matches may span lines, since the pattern's whitespace matches
newlines.  A match any of whose three fields is empty after trimming
contributes no triple and no nodes, a match whose three trimmed fields are
non-empty contributes exactly its trimmed triple, and for a block carrying
the marker the contributions are a per-match `filterMap`, so discarding one
match never affects the others. -/
theorem malformed_match_discarded (block g1 g2 g3 : Str)
    (_h : (g1, g2, g3) ∈ blockMatches block) :
    ((trimChars g1 = [] ∨ trimChars g2 = [] ∨ trimChars g3 = []) →
        matchTriple (g1, g2, g3) = none) ∧
      (trimChars g1 ≠ [] → trimChars g2 ≠ [] → trimChars g3 ≠ [] →
        matchTriple (g1, g2, g3) =
          some ⟨trimChars g1, trimChars g2, trimChars g3⟩) ∧
      (containsSub relMarker block = true →
        blockTriples block = (blockMatches block).filterMap matchTriple) := by
  refine ⟨?_, ?_, ?_⟩
  · intro hdeg
    unfold matchTriple
    simp only [hdeg, if_pos]
  · intro h1 h2 h3
    unfold matchTriple
    simp [h1, h2, h3]
  · intro hblock
    unfold blockTriples
    rw [hblock]
    simp

theorem malformed_match_discarded_witness :
    matchTriple (str " ", str "x", str "y") = none ∧
      blockTriples (str "Relationships:\n-  -> x -> y") =
        (blockMatches (str "Relationships:\n-  -> x -> y")).filterMap
          matchTriple :=
  ⟨(malformed_match_discarded (str "Relationships:\n-  -> x -> y")
      (str " ") (str "x") (str "y") (by decide)).1 (Or.inl (by decide)),
   (malformed_match_discarded (str "Relationships:\n-  -> x -> y")
      (str " ") (str "x") (str "y") (by decide)).2.2 (by decide)⟩

theorem graph_containment_witness :
    ∃ t ∈ allTriples [str "Relationships:\n- Alice -> knows -> Bob"],
      t.source = (str "Alice", str "Bob", str "knows").1 ∧
        t.target = (str "Alice", str "Bob", str "knows").2.1 :=
  (graph_containment [str "Relationships:\n- Alice -> knows -> Bob"]).1
    (str "Alice", str "Bob", str "knows") (by decide)

/-- The fixed per-chunk failure sentinel appended by
`extract_entities_relationships` when the LLM call raises. -/
def extractFailSentinel : Str := str "Error: Failed to extract elements."

/-- The instruction prompt used for entity and relationship extraction. -/
def entityExtractionInstruction : Str :=
  str "\nExtract all entities and their relationships from the text.\nRespond in the following format, and only this format:\n\nEntities:\n- <Entity 1>\n- <Entity 2>\n...\n\nRelationships:\n- <Entity 1> -> <Relationship> -> <Entity 2>\n- <Entity 3> -> <Relationship> -> <Entity 4>\n...\n"

/-- `extract_entities_relationships`: per text unit, ask the LLM for an
element summary; a raised exception (`none`) degrades that unit to the
fixed failure sentinel and processing continues. -/
def extract_entities_relationships (llm : Str → Str → Option Str)
    (chunks : List Str) : List Str :=
  chunks.map (fun chunk =>
    match llm entityExtractionInstruction chunk with
    | some r => r
    | none => extractFailSentinel)

/-- A block on which an `"Entities:"`-only name becomes a node: the entity
line `"- Alice"` and the following line `"-> x -> y"` merge into the single
spanning regex match `(Alice, x, y)`, although no individual line matches
the structural triple shape with Alice in it. -/
def cexBlockC10 : Str :=
  str "Entities:\n- Alice\n-> x -> y\n\nRelationships:\n- C -> s -> D"

/-- C10 counterexample: in `cexBlockC10` the only line matching the
structural shape contributes `(C, s, D)`, so no matching relationship line
mentions Alice, yet Alice is a node of the built graph — via the spanning
match `(Alice, x, y)` — so "entities listed only under an Entities: section
never become nodes" fails on the code. -/
theorem entities_only_node_counterexample :
    (splitLines cexBlockC10).filterMap lineTriple =
        [⟨str "C", str "s", str "D"⟩] ∧
      str "Alice" ∈ (build_knowledge_graph [cexBlockC10]).nodes ∧
      (⟨str "Alice", str "x", str "y"⟩ : Triple) ∈ allTriples [cexBlockC10] := by
  refine ⟨by decide, by decide, by decide⟩

/-- C10 as amended: every node of the built graph is the source or target
of some regex match extracted from the input — a match may span lines, so
an entity listed under `"Entities:"` can become a node when its line merges
with a following line into one match, but a name occurring in no match
never becomes a node; the extraction-failure sentinel produced by
`extract_entities_relationships` carries no `"Relationships:"` marker, so
it contributes no triples and hence no nodes or edges. -/
theorem nodes_from_relationships_only (blocks : List Str) (n : Str)
    (h : n ∈ (build_knowledge_graph blocks).nodes) :
    (∃ t ∈ allTriples blocks, n = t.source ∨ n = t.target) ∧
      blockTriples extractFailSentinel = [] ∧
      (∀ pre post : List Str,
        build_knowledge_graph (pre ++ extractFailSentinel :: post) =
          build_knowledge_graph (pre ++ post)) ∧
      ∀ llmf : Str → Str → Option Str, ∀ chunk : Str,
        llmf entityExtractionInstruction chunk = none →
          extract_entities_relationships llmf [chunk] = [extractFailSentinel] := by
  have hsent : blockTriples extractFailSentinel = [] := by decide
  refine ⟨?_, hsent, fun pre post => build_skip_block pre post _ hsent, ?_⟩
  · rcases nodes_foldl_from (allTriples blocks) emptyGraph n h with hh | hh
    · exact hh
    · cases hh
  · intro llmf chunk hnone
    unfold extract_entities_relationships
    simp [hnone]

theorem nodes_from_relationships_only_witness :
    (∃ t ∈ allTriples [str "Relationships:\n- Alice -> knows -> Bob"],
        str "Alice" = t.source ∨ str "Alice" = t.target) ∧
      blockTriples extractFailSentinel = [] :=
  ⟨(nodes_from_relationships_only
      [str "Relationships:\n- Alice -> knows -> Bob"] (str "Alice")
      (by decide)).1,
   (nodes_from_relationships_only
      [str "Relationships:\n- Alice -> knows -> Bob"] (str "Alice")
      (by decide)).2.1⟩

/-- Well-formedness every `networkx.Graph` enjoys: node names are distinct
(nodes live in a dict) and every edge endpoint is a node. -/
def WfGraph (g : KGraph) : Prop :=
  g.nodes.Nodup ∧ ∀ e ∈ g.edges, e.1 ∈ g.nodes ∧ e.2.1 ∈ g.nodes

instance (g : KGraph) : Decidable (WfGraph g) := by
  unfold WfGraph; infer_instance

/-- One `"- {node}\n"` entity line of a community rendering. -/
def renderEntity (n : Str) : Str := str "- " ++ n ++ str "\n"

/-- One `"- {u} -> {label} -> {v}\n"` relationship line of the rendering. -/
def renderEdge (e : Str × Str × Str) : Str :=
  str "- " ++ e.1 ++ str " -> " ++ e.2.2 ++ str " -> " ++ e.2.1 ++ str "\n"

/-- The nodes of `graph.subgraph(community_nodes)`: graph nodes that are
community members. -/
def subgraphNodes (g : KGraph) (comm : List Str) : List Str :=
  g.nodes.filter (fun n => decide (n ∈ comm))

/-- The edges of `graph.subgraph(community_nodes)`: graph edges both of
whose endpoints are nodes of the induced subgraph. -/
def subgraphEdges (g : KGraph) (comm : List Str) : List (Str × Str × Str) :=
  g.edges.filter (fun e =>
    decide (e.1 ∈ subgraphNodes g comm) && decide (e.2.1 ∈ subgraphNodes g comm))

/-- The canonical community rendering `community_data` built by
`summarize_communities`: an `"Entities:"` section with one line per member
node in stored order, then a `"Relationships:"` section with one line per
edge of the induced subgraph. -/
def communityData (g : KGraph) (comm : List Str) : Str :=
  str "Entities:\n" ++ (comm.map renderEntity).flatten ++
    str "\nRelationships:\n" ++ ((subgraphEdges g comm).map renderEdge).flatten

/-- `COMMUNITY_SUMMARY_PROMPT.format(community_data=d)`. -/
def communitySummaryInstruction (d : Str) : Str :=
  str "\nBased on the following entities and relationships from a text community, write a concise, one-paragraph summary that captures the main topic of this community.\n\nData:\n" ++
    d ++ str "\n\nSummary:\n"

/-- The fixed sentinel summary recorded when summarization of one
community raises. -/
def summarySentinel : Str := str "Error: Failed to generate summary."

structure SummaryRecord where
  community_id : Nat
  nodes : List Str
  summary : Str
deriving DecidableEq

/-- The record appended for community number `i`: the LLM response when the
call succeeds, the fixed sentinel summary when it raises. -/
def summarizeOne (g : KGraph) (llm : Str → Str → Option Str) (i : Nat)
    (comm : List Str) : SummaryRecord :=
  match llm (communitySummaryInstruction (communityData g comm)) [] with
  | some s => ⟨i, comm, s⟩
  | none => ⟨i, comm, summarySentinel⟩

/-- The enumeration loop of `summarize_communities`, with running index. -/
def summarizeFrom (g : KGraph) (llm : Str → Str → Option Str) :
    Nat → List (List Str) → List SummaryRecord
  | _, [] => []
  | i, comm :: rest => summarizeOne g llm i comm :: summarizeFrom g llm (i + 1) rest

/-- `summarize_communities`: one record per community, ids assigned by
enumeration order. -/
def summarize_communities (comms : List (List Str)) (g : KGraph)
    (llm : Str → Str → Option Str) : List SummaryRecord :=
  summarizeFrom g llm 0 comms

lemma summarizeFrom_length (g : KGraph) (llm : Str → Str → Option Str)
    (k : Nat) (comms : List (List Str)) :
    (summarizeFrom g llm k comms).length = comms.length := by
  induction comms generalizing k with
  | nil => rfl
  | cons comm rest ih => simp [summarizeFrom, ih]

lemma summarizeFrom_getElem? (g : KGraph) (llm : Str → Str → Option Str)
    (k i : Nat) (comms : List (List Str)) :
    (summarizeFrom g llm k comms)[i]? =
      (comms[i]?).map (fun c => summarizeOne g llm (k + i) c) := by
  induction comms generalizing k i with
  | nil => simp [summarizeFrom]
  | cons comm rest ih =>
    cases i with
    | zero => simp [summarizeFrom]
    | succ j =>
      simp only [summarizeFrom, List.getElem?_cons_succ]
      rw [ih (k + 1) j]
      have hk : k + 1 + j = k + (j + 1) := by omega
      rw [hk]

/-- C3: `summarize_communities` returns one record per input community, in
input order: record `i` has `community_id = i` and `nodes` equal to the
`i`-th community; a raised summarization call for community `i` puts the
fixed sentinel text in record `i`'s summary, a successful call puts the
response there, and either way all other records are produced. -/
theorem summarize_order_and_isolation (comms : List (List Str)) (g : KGraph)
    (llm : Str → Str → Option Str) :
    (summarize_communities comms g llm).length = comms.length ∧
      ∀ i c, comms[i]? = some c →
        (summarize_communities comms g llm)[i]? =
            some (summarizeOne g llm i c) ∧
          (summarizeOne g llm i c).community_id = i ∧
          (summarizeOne g llm i c).nodes = c ∧
          (llm (communitySummaryInstruction (communityData g c)) [] = none →
            (summarizeOne g llm i c).summary = summarySentinel) ∧
          ∀ s, llm (communitySummaryInstruction (communityData g c)) [] = some s →
            (summarizeOne g llm i c).summary = s := by
  refine ⟨summarizeFrom_length g llm 0 comms, ?_⟩
  intro i c hc
  refine ⟨?_, ?_, ?_, ?_, ?_⟩
  · rw [summarize_communities, summarizeFrom_getElem?, hc]
    simp
  · unfold summarizeOne
    cases llm (communitySummaryInstruction (communityData g c)) [] <;> rfl
  · unfold summarizeOne
    cases llm (communitySummaryInstruction (communityData g c)) [] <;> rfl
  · intro hfail
    unfold summarizeOne
    rw [hfail]
  · intro s hs
    unfold summarizeOne
    rw [hs]

theorem summarize_order_and_isolation_witness :
    (summarize_communities [[str "A"]] emptyGraph (fun _ _ => none)).length = 1 ∧
      (summarize_communities [[str "A"]] emptyGraph (fun _ _ => none))[0]? =
        some (summarizeOne emptyGraph (fun _ _ => none) 0 [str "A"]) ∧
      (summarizeOne emptyGraph (fun _ _ => none) 0 [str "A"]).summary =
        summarySentinel :=
  ⟨(summarize_order_and_isolation [[str "A"]] emptyGraph (fun _ _ => none)).1,
   ((summarize_order_and_isolation [[str "A"]] emptyGraph
      (fun _ _ => none)).2 0 [str "A"] rfl).1,
   ((summarize_order_and_isolation [[str "A"]] emptyGraph
      (fun _ _ => none)).2 0 [str "A"] rfl).2.2.2.1 rfl⟩

/-- C6: the community rendering's `"Relationships:"` section lists exactly
the graph edges both of whose endpoints belong to the community; an edge
with an endpoint outside the community is never rendered. -/
theorem rendering_exclusion (g : KGraph) (comm : List Str)
    (hwf : WfGraph g) :
    communityData g comm =
        str "Entities:\n" ++ (comm.map renderEntity).flatten ++
          str "\nRelationships:\n" ++
          ((subgraphEdges g comm).map renderEdge).flatten ∧
      (∀ e, e ∈ subgraphEdges g comm ↔
        e ∈ g.edges ∧ e.1 ∈ comm ∧ e.2.1 ∈ comm) ∧
      ∀ e ∈ g.edges, (e.1 ∉ comm ∨ e.2.1 ∉ comm) →
        e ∉ subgraphEdges g comm := by
  have hiff : ∀ e, e ∈ subgraphEdges g comm ↔
      e ∈ g.edges ∧ e.1 ∈ comm ∧ e.2.1 ∈ comm := by
    intro e
    unfold subgraphEdges subgraphNodes
    rw [List.mem_filter]
    constructor
    · rintro ⟨he, hcond⟩
      simp only [Bool.and_eq_true, decide_eq_true_eq, List.mem_filter] at hcond
      exact ⟨he, hcond.1.2, hcond.2.2⟩
    · rintro ⟨he, h1, h2⟩
      refine ⟨he, ?_⟩
      simp only [Bool.and_eq_true, decide_eq_true_eq, List.mem_filter]
      exact ⟨⟨(hwf.2 e he).1, h1⟩, ⟨(hwf.2 e he).2, h2⟩⟩
  refine ⟨rfl, hiff, ?_⟩
  intro e he hout hmem
  rcases hout with h | h
  · exact h ((hiff e).mp hmem).2.1
  · exact h ((hiff e).mp hmem).2.2

/-- The two-community example graph of the rendering-exclusion property. -/
def exampleGraph : KGraph :=
  ⟨[str "Alice", str "Bob", str "Carol", str "Dave"],
   [(str "Alice", str "Bob", str "knows"),
    (str "Carol", str "Dave", str "mentors")]⟩

theorem rendering_exclusion_witness :
    WfGraph exampleGraph ∧
      ((str "Alice", str "Bob", str "knows") ∈
          subgraphEdges exampleGraph [str "Alice", str "Bob"] ↔
        (str "Alice", str "Bob", str "knows") ∈ exampleGraph.edges ∧
          str "Alice" ∈ [str "Alice", str "Bob"] ∧
          str "Bob" ∈ [str "Alice", str "Bob"]) ∧
      (str "Carol", str "Dave", str "mentors") ∉
        subgraphEdges exampleGraph [str "Alice", str "Bob"] :=
  ⟨by decide,
   (rendering_exclusion exampleGraph [str "Alice", str "Bob"]
      (by decide)).2.1 (str "Alice", str "Bob", str "knows"),
   (rendering_exclusion exampleGraph [str "Alice", str "Bob"]
      (by decide)).2.2 (str "Carol", str "Dave", str "mentors") (by decide)
      (Or.inl (by decide))⟩

/-- The observable outcome of one run of the query stage. -/
structure QueryRunResult where
  diagnostic : Option Str
  llmConstructed : Bool
  modelCalls : Nat
  finalAnswer : Option Str
deriving DecidableEq

/-- `scripts/run_query.py main`: abort with a diagnostic when the summaries
file is missing, load it, abort with a diagnostic when the loaded content
is empty, and only then construct the LLM handler and delegate to the
global answerer (abstracted as `gen`, returning the final answer together
with the number of model requests it issued). -/
def run_query_main (fileExists : Bool) (summaries : List SummaryRecord)
    (gen : List SummaryRecord → Str × Nat) : QueryRunResult :=
  if fileExists = false then
    ⟨some (str "Summaries file not found"), false, 0, none⟩
  else if summaries.isEmpty then
    ⟨some (str "Community summaries file is empty."), false, 0, none⟩
  else
    ⟨none, true, (gen summaries).2, some (gen summaries).1⟩

/-- C9: when the summaries file is missing or its loaded content is empty,
the query stage stops with a diagnostic before the model stage: the LLM
handler is never constructed and no model request is issued in that run. -/
theorem query_aborts_before_llm (fileExists : Bool)
    (summaries : List SummaryRecord) (gen : List SummaryRecord → Str × Nat)
    (h : fileExists = false ∨ summaries = []) :
    (run_query_main fileExists summaries gen).diagnostic.isSome = true ∧
      (run_query_main fileExists summaries gen).llmConstructed = false ∧
      (run_query_main fileExists summaries gen).modelCalls = 0 := by
  rcases h with rfl | rfl
  · simp [run_query_main]
  · cases fileExists <;> simp [run_query_main]

theorem query_aborts_before_llm_witness :
    (run_query_main false [⟨0, [], str "s"⟩]
        (fun _ => (str "answer", 5))).llmConstructed = false ∧
      (run_query_main true []
        (fun _ => (str "answer", 5))).modelCalls = 0 :=
  ⟨(query_aborts_before_llm false [⟨0, [], str "s"⟩]
      (fun _ => (str "answer", 5)) (Or.inl rfl)).2.1,
   (query_aborts_before_llm true [] (fun _ => (str "answer", 5))
      (Or.inr rfl)).2.2⟩

/-- Merge the group containing `u` with the group containing `v`; identity
when either is absent or both lie in one group already.  Folding this over
the edge list computes the connected components that
`nx.connected_components` yields. -/
def mergeGroups (gs : List (List Str)) (u v : Str) : List (List Str) :=
  match gs.find? (fun grp => decide (u ∈ grp)),
      gs.find? (fun grp => decide (v ∈ grp)) with
  | some gu, some gv =>
    if gu = gv then gs
    else gs.filter (fun grp => decide (grp ≠ gu ∧ grp ≠ gv)) ++ [gu ++ gv]
  | _, _ => gs

/-- The connected components of a graph: start from singleton groups of the
nodes and merge along every edge. -/
def componentsOf (g : KGraph) : List (List Str) :=
  g.edges.foldl (fun gs e => mergeGroups gs e.1 e.2.1)
    (g.nodes.map (fun n => [n]))

/-- A list of groups forming a partition of `univ`: every group non-empty
and duplicate-free, groups pairwise disjoint, and the groups covering
exactly `univ`. -/
def IsPartitionList (gs : List (List Str)) (univ : List Str) : Prop :=
  (∀ grp ∈ gs, grp ≠ [] ∧ grp.Nodup) ∧
    List.Pairwise (fun a b => ∀ x ∈ a, x ∉ b) gs ∧
    ∀ x, (∃ grp ∈ gs, x ∈ grp) ↔ x ∈ univ

lemma disjointRel_symm : Symmetric (fun a b : List Str => ∀ x ∈ a, x ∉ b) :=
  fun _ _ h x hxb hxa => h x hxa hxb

lemma mergeGroups_partition (gs : List (List Str)) (univ : List Str)
    (u v : Str) (h : IsPartitionList gs univ) :
    IsPartitionList (mergeGroups gs u v) univ := by
  obtain ⟨hne, hpw, huniv⟩ := h
  unfold mergeGroups
  cases hu : gs.find? (fun grp => decide (u ∈ grp)) with
  | none => exact ⟨hne, hpw, huniv⟩
  | some gu =>
    cases hv : gs.find? (fun grp => decide (v ∈ grp)) with
    | none => exact ⟨hne, hpw, huniv⟩
    | some gv =>
      show IsPartitionList
        (if gu = gv then gs
         else gs.filter (fun grp => decide (grp ≠ gu ∧ grp ≠ gv)) ++ [gu ++ gv])
        univ
      by_cases heq : gu = gv
      · rw [if_pos heq]
        exact ⟨hne, hpw, huniv⟩
      · rw [if_neg heq]
        have hgu_mem : gu ∈ gs := List.mem_of_find?_eq_some hu
        have hgv_mem : gv ∈ gs := List.mem_of_find?_eq_some hv
        have hdisj := hpw.forall disjointRel_symm
        refine ⟨?_, ?_, ?_⟩
        · intro grp hgrp
          rcases List.mem_append.mp hgrp with hf | hs
          · exact hne grp (List.mem_of_mem_filter hf)
          · rw [List.mem_singleton] at hs
            subst hs
            refine ⟨fun hc => (hne gu hgu_mem).1 (List.append_eq_nil.mp hc).1, ?_⟩
            exact ((hne gu hgu_mem).2).append ((hne gv hgv_mem).2)
              (hdisj hgu_mem hgv_mem heq)
        · rw [List.pairwise_append]
          refine ⟨List.Pairwise.sublist (List.filter_sublist gs) hpw,
            List.pairwise_singleton _ _, ?_⟩
          intro a ha b hb
          rw [List.mem_singleton] at hb
          subst hb
          have hafilter := List.mem_filter.mp ha
          have haneq : a ≠ gu ∧ a ≠ gv := by simpa using hafilter.2
          intro x hxa hxuv
          rcases List.mem_append.mp hxuv with hx | hx
          · exact hdisj hafilter.1 hgu_mem haneq.1 x hxa hx
          · exact hdisj hafilter.1 hgv_mem haneq.2 x hxa hx
        · intro x
          rw [← huniv x]
          constructor
          · rintro ⟨grp, hgrp, hx⟩
            rcases List.mem_append.mp hgrp with hf | hs
            · exact ⟨grp, List.mem_of_mem_filter hf, hx⟩
            · rw [List.mem_singleton] at hs
              subst hs
              rcases List.mem_append.mp hx with hx | hx
              · exact ⟨gu, hgu_mem, hx⟩
              · exact ⟨gv, hgv_mem, hx⟩
          · rintro ⟨grp, hgrp, hx⟩
            by_cases h1 : grp = gu
            · refine ⟨gu ++ gv, List.mem_append_right _ (List.mem_singleton_self _), ?_⟩
              subst h1
              exact List.mem_append_left _ hx
            · by_cases h2 : grp = gv
              · refine ⟨gu ++ gv, List.mem_append_right _ (List.mem_singleton_self _), ?_⟩
                subst h2
                exact List.mem_append_right _ hx
              · refine ⟨grp, List.mem_append_left _ ?_, hx⟩
                rw [List.mem_filter]
                exact ⟨hgrp, by simp [h1, h2]⟩

lemma singletons_partition (nodes : List Str) (hnd : nodes.Nodup) :
    IsPartitionList (nodes.map (fun n => [n])) nodes := by
  refine ⟨?_, ?_, ?_⟩
  · intro grp hgrp
    obtain ⟨n, _, rfl⟩ := List.mem_map.mp hgrp
    exact ⟨by simp, List.nodup_singleton n⟩
  · refine List.Pairwise.map _ ?_ hnd
    intro a b hab x hx1 hx2
    rw [List.mem_singleton] at hx1 hx2
    exact hab (hx1 ▸ hx2)
  · intro x
    constructor
    · rintro ⟨grp, hgrp, hx⟩
      obtain ⟨n, hn, rfl⟩ := List.mem_map.mp hgrp
      rw [List.mem_singleton] at hx
      subst hx
      exact hn
    · intro hx
      exact ⟨[x], List.mem_map_of_mem _ hx, List.mem_singleton_self x⟩

lemma foldl_merge_partition (es : List (Str × Str × Str))
    (gs : List (List Str)) (univ : List Str) (h : IsPartitionList gs univ) :
    IsPartitionList
      (es.foldl (fun gs e => mergeGroups gs e.1 e.2.1) gs) univ := by
  induction es generalizing gs with
  | nil => exact h
  | cons e es ih => exact ih _ (mergeGroups_partition _ _ _ _ h)

/-- The connected components of a well-formed graph partition its node
set. -/
lemma componentsOf_partition (g : KGraph) (hwf : WfGraph g) :
    IsPartitionList (componentsOf g) g.nodes :=
  foldl_merge_partition _ _ _ (singletons_partition g.nodes hwf.1)

/-- `detect_communities`, with the stochastic per-component
`leidenalg.find_partition` call abstracted as `partitionAlg` (`none`
models a raised exception): per connected component either append the
partition result or fall back to the whole component as one community. -/
def detect_communities (g : KGraph)
    (partitionAlg : List Str → Option (List (List Str))) : List (List Str) :=
  (componentsOf g).foldl (fun acc comp =>
    match partitionAlg comp with
    | some parts => acc ++ parts
    | none => if 0 < comp.length then acc ++ [comp] else acc) []

/-- The communities that one component contributes. -/
def componentCommunities
    (partitionAlg : List Str → Option (List (List Str)))
    (comp : List Str) : List (List Str) :=
  match partitionAlg comp with
  | some parts => parts
  | none => if 0 < comp.length then [comp] else []

lemma detect_eq (g : KGraph)
    (partitionAlg : List Str → Option (List (List Str))) :
    detect_communities g partitionAlg =
      ((componentsOf g).map (componentCommunities partitionAlg)).flatten := by
  unfold detect_communities
  suffices h : ∀ (comps : List (List Str)) (acc : List (List Str)),
      comps.foldl (fun acc comp =>
        match partitionAlg comp with
        | some parts => acc ++ parts
        | none => if 0 < comp.length then acc ++ [comp] else acc) acc =
        acc ++ (comps.map (componentCommunities partitionAlg)).flatten by
    rw [h]
    rfl
  have hstep : ∀ (acc : List (List Str)) (comp : List Str),
      (match partitionAlg comp with
        | some parts => acc ++ parts
        | none => if 0 < comp.length then acc ++ [comp] else acc) =
        acc ++ componentCommunities partitionAlg comp := by
    intro acc comp
    unfold componentCommunities
    cases partitionAlg comp with
    | some parts => rfl
    | none =>
      by_cases h : 0 < comp.length
      · rw [if_pos h, if_pos h]
      · rw [if_neg h, if_neg h, List.append_nil]
  intro comps
  induction comps with
  | nil => intro acc; simp
  | cons comp rest ih =>
    intro acc
    simp only [List.foldl_cons]
    rw [hstep, ih]
    simp [List.append_assoc]

/-- Modelled from the spec: `leidenalg.find_partition` with
`ModularityVertexPartition` (not part of this repository) returns, when it
does not raise, a non-overlapping cover of the component's vertex set by
non-empty communities. -/
def ValidPartitioner (g : KGraph)
    (partitionAlg : List Str → Option (List (List Str))) : Prop :=
  ∀ comp ∈ componentsOf g, ∀ ps, partitionAlg comp = some ps →
    IsPartitionList ps comp

lemma componentCommunities_spec (g : KGraph)
    (partitionAlg : List Str → Option (List (List Str)))
    (hwf : WfGraph g) (hvalid : ValidPartitioner g partitionAlg)
    (comp : List Str) (hcomp : comp ∈ componentsOf g) :
    IsPartitionList (componentCommunities partitionAlg comp) comp := by
  have hcne := ((componentsOf_partition g hwf).1 comp hcomp)
  unfold componentCommunities
  cases hp : partitionAlg comp with
  | some ps => exact hvalid comp hcomp ps hp
  | none =>
    have hlen : 0 < comp.length := List.length_pos.mpr hcne.1
    rw [if_pos hlen]
    refine ⟨?_, List.pairwise_singleton _ _, ?_⟩
    · intro grp hgrp
      rw [List.mem_singleton] at hgrp
      subst hgrp
      exact hcne
    · intro x
      simp

lemma flatten_partition (comps : List (List Str)) (univ : List Str)
    (f : List Str → List (List Str))
    (hcomps : IsPartitionList comps univ)
    (hf : ∀ comp ∈ comps, IsPartitionList (f comp) comp) :
    IsPartitionList ((comps.map f).flatten) univ := by
  obtain ⟨hne, hpw, huniv⟩ := hcomps
  refine ⟨?_, ?_, ?_⟩
  · intro c hc
    obtain ⟨l, hl, hcl⟩ := List.mem_flatten.mp hc
    obtain ⟨comp, hcomp, rfl⟩ := List.mem_map.mp hl
    exact (hf comp hcomp).1 c hcl
  · rw [List.pairwise_flatten]
    constructor
    · intro l hl
      obtain ⟨comp, hcomp, rfl⟩ := List.mem_map.mp hl
      exact (hf comp hcomp).2.1
    · rw [List.pairwise_map]
      refine List.Pairwise.imp_of_mem ?_ hpw
      intro a b ha hb hab
      intro x hxa y hyb z hzx hzy
      have hza : z ∈ a := ((hf a ha).2.2 z).mp ⟨x, hxa, hzx⟩
      have hzb : z ∈ b := ((hf b hb).2.2 z).mp ⟨y, hyb, hzy⟩
      exact hab z hza hzb
  · intro x
    constructor
    · rintro ⟨c, hc, hx⟩
      obtain ⟨l, hl, hcl⟩ := List.mem_flatten.mp hc
      obtain ⟨comp, hcomp, rfl⟩ := List.mem_map.mp hl
      have hxcomp : x ∈ comp := ((hf comp hcomp).2.2 x).mp ⟨c, hcl, hx⟩
      exact (huniv x).mp ⟨comp, hcomp, hxcomp⟩
    · intro hx
      obtain ⟨comp, hcomp, hxc⟩ := (huniv x).mpr hx
      obtain ⟨c, hc, hxcc⟩ := ((hf comp hcomp).2.2 x).mpr hxc
      exact ⟨c, List.mem_flatten.mpr ⟨f comp, List.mem_map_of_mem _ hcomp, hc⟩,
        hxcc⟩

lemma partitionList_nil (gs : List (List Str))
    (h : IsPartitionList gs []) : gs = [] := by
  cases gs with
  | nil => rfl
  | cons g0 rest =>
    obtain ⟨x, hx⟩ := List.exists_mem_of_ne_nil g0
      (h.1 g0 (List.mem_cons_self _ _)).1
    exact absurd ((h.2.2 x).mp ⟨g0, List.mem_cons_self _ _, hx⟩)
      (List.not_mem_nil x)

lemma all_eq_singleton (l : List Str) (n : Str) (hne : l ≠ [])
    (hnd : l.Nodup) (hall : ∀ x ∈ l, x = n) : l = [n] := by
  cases l with
  | nil => exact absurd rfl hne
  | cons x t =>
    have hx : x = n := hall x (List.mem_cons_self _ _)
    subst hx
    cases t with
    | nil => rfl
    | cons y t2 =>
      have hy : y = x := hall y (List.mem_cons_of_mem _ (List.mem_cons_self _ _))
      have hnotmem : x ∉ y :: t2 := (List.nodup_cons.mp hnd).1
      rw [hy] at hnotmem
      exact absurd (List.mem_cons_self x t2) hnotmem

lemma partitionList_singleton (gs : List (List Str)) (n : Str)
    (h : IsPartitionList gs [n]) : gs = [[n]] := by
  obtain ⟨hne, hpw, huniv⟩ := h
  cases gs with
  | nil =>
    obtain ⟨grp, hgrp, hx⟩ := (huniv n).mpr (List.mem_singleton_self n)
    exact absurd hgrp (List.not_mem_nil grp)
  | cons g0 rest =>
    have hg0 : g0 = [n] := by
      refine all_eq_singleton g0 n (hne g0 (List.mem_cons_self _ _)).1
        (hne g0 (List.mem_cons_self _ _)).2 ?_
      intro x hx
      have := (huniv x).mp ⟨g0, List.mem_cons_self _ _, hx⟩
      simpa using this
    subst hg0
    cases rest with
    | nil => rfl
    | cons g1 rest2 =>
      have hg1 : g1 = [n] := by
        refine all_eq_singleton g1 n
          (hne g1 (List.mem_cons_of_mem _ (List.mem_cons_self _ _))).1
          (hne g1 (List.mem_cons_of_mem _ (List.mem_cons_self _ _))).2 ?_
        intro x hx
        have := (huniv x).mp
          ⟨g1, List.mem_cons_of_mem _ (List.mem_cons_self _ _), hx⟩
        simpa using this
      have hdis := (List.pairwise_cons.mp hpw).1 g1 (List.mem_cons_self _ _)
      exact absurd (hg1 ▸ List.mem_singleton_self n)
        (hdis n (List.mem_singleton_self n))

/-- C1: for a well-formed graph and a valid per-component partitioner, the
detected communities are pairwise disjoint, non-empty, together cover the
node set exactly, and each lies inside a single connected component; the
empty graph yields zero communities and a single-node graph yields one
singleton community — with or without partitioner failures. -/
theorem detect_coverage_invariant (g : KGraph)
    (partitionAlg : List Str → Option (List (List Str)))
    (hwf : WfGraph g) (hvalid : ValidPartitioner g partitionAlg) :
    IsPartitionList (detect_communities g partitionAlg) g.nodes ∧
      (∀ c ∈ detect_communities g partitionAlg,
        ∃ comp ∈ componentsOf g, ∀ x ∈ c, x ∈ comp) ∧
      (g.nodes = [] → detect_communities g partitionAlg = []) ∧
      ∀ n : Str, g.nodes = [n] → detect_communities g partitionAlg = [[n]] := by
  have hcp := componentsOf_partition g hwf
  have hspec := componentCommunities_spec g partitionAlg hwf hvalid
  refine ⟨?_, ?_, ?_, ?_⟩
  · rw [detect_eq]
    exact flatten_partition _ _ _ hcp hspec
  · intro c hc
    rw [detect_eq] at hc
    obtain ⟨l, hl, hcl⟩ := List.mem_flatten.mp hc
    obtain ⟨comp, hcomp, rfl⟩ := List.mem_map.mp hl
    refine ⟨comp, hcomp, ?_⟩
    intro x hx
    exact (((hspec comp hcomp).2.2 x).mp ⟨c, hcl, hx⟩)
  · intro hnil
    rw [detect_eq]
    rw [hnil] at hcp
    rw [partitionList_nil _ hcp]
    rfl
  · intro n hn
    rw [detect_eq]
    rw [hn] at hcp
    have hcomps : componentsOf g = [[n]] := partitionList_singleton _ n hcp
    have hmem : [n] ∈ componentsOf g := by
      rw [hcomps]
      exact List.mem_singleton_self _
    have hf : componentCommunities partitionAlg [n] = [[n]] := by
      refine partitionList_singleton _ n ?_
      exact hspec [n] hmem
    rw [hcomps]
    simp [hf]

def singleNodeGraph : KGraph := ⟨[str "A"], []⟩

def alwaysFailPartitioner : List Str → Option (List (List Str)) :=
  fun _ => none

theorem detect_coverage_invariant_witness :
    detect_communities singleNodeGraph alwaysFailPartitioner = [[str "A"]] :=
  (detect_coverage_invariant singleNodeGraph alwaysFailPartitioner (by decide)
    (fun _ _ _ h => Option.noConfusion h)).2.2.2 (str "A") rfl

lemma count_flatten_fallback
    (partitionAlg : List Str → Option (List (List Str)))
    (comps : List (List Str))
    (hpw : List.Pairwise (fun a b => ∀ x ∈ a, x ∉ b) comps)
    (hsub : ∀ comp2 ∈ comps, ∀ c ∈ componentCommunities partitionAlg comp2,
      c ≠ [] ∧ ∀ x ∈ c, x ∈ comp2)
    (comp : List Str) (hmem : comp ∈ comps) (hne : comp ≠ [])
    (hfail : partitionAlg comp = none) :
    List.count comp
      ((comps.map (componentCommunities partitionAlg)).flatten) = 1 := by
  induction comps with
  | nil => exact absurd hmem (List.not_mem_nil comp)
  | cons c0 rest ih =>
    rw [List.map_cons, List.flatten_cons, List.count_append]
    obtain ⟨x, hx⟩ := List.exists_mem_of_ne_nil comp hne
    have hdis := (List.pairwise_cons.mp hpw).1
    rcases List.mem_cons.mp hmem with rfl | hrest
    · have hown : componentCommunities partitionAlg comp = [comp] := by
        unfold componentCommunities
        rw [hfail, if_pos (List.length_pos.mpr hne)]
      have hrest0 : List.count comp
          ((rest.map (componentCommunities partitionAlg)).flatten) = 0 := by
        rw [List.count_eq_zero]
        intro hinflat
        obtain ⟨l, hl, hcl⟩ := List.mem_flatten.mp hinflat
        obtain ⟨comp2, hcomp2, rfl⟩ := List.mem_map.mp hl
        have hxc2 : x ∈ comp2 :=
          (hsub comp2 (List.mem_cons_of_mem _ hcomp2) comp hcl).2 x hx
        exact hdis comp2 hcomp2 x hx hxc2
      rw [hown, hrest0]
      simp
    · have hc0 : List.count comp (componentCommunities partitionAlg c0) = 0 := by
        rw [List.count_eq_zero]
        intro hinc0
        have hxc0 : x ∈ c0 :=
          (hsub c0 (List.mem_cons_self _ _) comp hinc0).2 x hx
        exact hdis comp hrest x hxc0 hx
      rw [hc0]
      rw [ih (List.pairwise_cons.mp hpw).2
        (fun c2 hc2 => hsub c2 (List.mem_cons_of_mem _ hc2)) hrest]

/-- C2: when the partitioner raises on a connected component, the whole
component is emitted exactly once as a single community containing all of
its nodes, and every other component's communities are still produced. -/
theorem detect_component_fallback (g : KGraph)
    (partitionAlg : List Str → Option (List (List Str)))
    (hwf : WfGraph g) (hvalid : ValidPartitioner g partitionAlg)
    (comp : List Str) (hcomp : comp ∈ componentsOf g)
    (hfail : partitionAlg comp = none) :
    List.count comp (detect_communities g partitionAlg) = 1 ∧
      (∀ n ∈ comp, ∃ c ∈ detect_communities g partitionAlg,
        n ∈ c ∧ c = comp) ∧
      ∀ comp2 ∈ componentsOf g,
        ∀ c ∈ componentCommunities partitionAlg comp2,
          c ∈ detect_communities g partitionAlg := by
  have hcp := componentsOf_partition g hwf
  have hspec := componentCommunities_spec g partitionAlg hwf hvalid
  have hne : comp ≠ [] := (hcp.1 comp hcomp).1
  have hown : componentCommunities partitionAlg comp = [comp] := by
    unfold componentCommunities
    rw [hfail, if_pos (List.length_pos.mpr hne)]
  have hmemdet : ∀ comp2 ∈ componentsOf g,
      ∀ c ∈ componentCommunities partitionAlg comp2,
        c ∈ detect_communities g partitionAlg := by
    intro comp2 hcomp2 c hc
    rw [detect_eq]
    exact List.mem_flatten.mpr
      ⟨componentCommunities partitionAlg comp2, List.mem_map_of_mem _ hcomp2, hc⟩
  refine ⟨?_, ?_, hmemdet⟩
  · rw [detect_eq]
    refine count_flatten_fallback partitionAlg _ hcp.2.1 ?_ comp hcomp hne hfail
    intro comp2 hcomp2 c hc
    exact ⟨((hspec comp2 hcomp2).1 c hc).1,
      fun x hx => ((hspec comp2 hcomp2).2.2 x).mp ⟨c, hc, hx⟩⟩
  · intro n hn
    refine ⟨comp, ?_, hn, rfl⟩
    refine hmemdet comp hcomp comp ?_
    rw [hown]
    exact List.mem_singleton_self _

theorem detect_component_fallback_witness :
    List.count [str "A"]
      (detect_communities singleNodeGraph alwaysFailPartitioner) = 1 :=
  (detect_component_fallback singleNodeGraph alwaysFailPartitioner (by decide)
    (fun _ _ _ h => Option.noConfusion h) [str "A"] (by decide) rfl).1

lemma nodes_addNode_nodup (g : KGraph) (n : Str) (h : g.nodes.Nodup) :
    (addNode g n).nodes.Nodup := by
  unfold addNode
  split
  · exact h
  · next hmem =>
    refine h.append (List.nodup_singleton n) ?_
    intro x hx hxn
    rw [List.mem_singleton] at hxn
    subst hxn
    exact hmem hx

lemma nodes_foldl_nodup (ts : List Triple) (g : KGraph)
    (h : g.nodes.Nodup) : (ts.foldl applyTriple g).nodes.Nodup := by
  induction ts generalizing g with
  | nil => exact h
  | cons t ts ih =>
    rw [List.foldl_cons]
    refine ih _ ?_
    unfold applyTriple
    rw [nodes_addEdge]
    exact nodes_addNode_nodup _ _ (nodes_addNode_nodup _ _ h)

/-- Every graph produced by `build_knowledge_graph` is well-formed, so the
well-formedness hypotheses of the summarization and detection theorems hold
for every graph the pipeline actually constructs. -/
lemma wf_build (blocks : List Str) : WfGraph (build_knowledge_graph blocks) := by
  constructor
  · exact nodes_foldl_nodup _ emptyGraph (by simp [emptyGraph])
  · intro e he
    have hex : ∃ t ∈ allTriples blocks, t.source = e.1 ∧ t.target = e.2.1 := by
      rcases edges_foldl_from _ _ e he with h | ⟨e0, he0, _⟩
      · exact h
      · cases he0
    obtain ⟨t, ht, h1, h2⟩ := hex
    have := triple_nodes_foldl (allTriples blocks) emptyGraph t ht
    rw [h1, h2] at this
    exact this

end GraphRAG
